import Mathlib

/-!
Shallow embedding of the commit-log storage engine (store, index, log) and
proofs checking the specification's claims against it.

Bytes are modelled as `Nat` values below 256, byte files as `List Nat`,
machine integers as `Nat`/`Int` with explicit reduction modulo `2 ^ 64`
(`u64Mod`) at the points where the Go code performs unsigned 64-bit
arithmetic.  Fallible operations return a result together with the updated
state, or an `Except`.
-/

/-- 2 ^ 64, the modulus of Go `uint64` arithmetic. -/
def u64Mod : Nat := 2 ^ 64

/-- 2 ^ 32, the modulus of Go `uint32` arithmetic. -/
def u32Mod : Nat := 2 ^ 32

/-- 2 ^ 63: a `uint64` below this bound converts to a nonnegative `int64`. -/
def i63Cap : Nat := 2 ^ 63

/-- `binary.BigEndian.PutUint64`: the eight big-endian bytes of `n` as a
64-bit unsigned value. -/
def putUint64 (n : Nat) : List Nat :=
  [n / 2 ^ 56 % 256, n / 2 ^ 48 % 256, n / 2 ^ 40 % 256, n / 2 ^ 32 % 256,
   n / 2 ^ 24 % 256, n / 2 ^ 16 % 256, n / 2 ^ 8 % 256, n % 256]

/-- `binary.BigEndian.PutUint32`: the four big-endian bytes of `n` as a
32-bit unsigned value. -/
def putUint32 (n : Nat) : List Nat :=
  [n / 2 ^ 24 % 256, n / 2 ^ 16 % 256, n / 2 ^ 8 % 256, n % 256]

/-- `binary.BigEndian.Uint64`: decode eight big-endian bytes. -/
def beUint64 (bs : List Nat) : Nat :=
  bs.foldl (fun a b => a * 256 + b) 0

/-- `binary.BigEndian.Uint32`: decode four big-endian bytes. -/
def beUint32 (bs : List Nat) : Nat :=
  bs.foldl (fun a b => a * 256 + b) 0

/-! ## Store (src/internal/log/store.go) -/

/-- `lenWidth`: number of bytes holding a record's length prefix. -/
def lenWidth : Nat := 8

/-- State of a `store`: the bytes already written to the OS file, the bytes
still sitting in the `bufio.Writer`, and the in-memory `size` counter
(a `uint64`). -/
structure StoreState where
  file : List Nat
  buf : List Nat
  size : Nat
deriving DecidableEq

/-- Outcome oracle for the two fallible buffered writes inside
`store.Append`: either both succeed, or the length-prefix write fails, or
the payload write fails.  On failure the `bufio.Writer` may retain some
partially written bytes (`junk`); the Go code returns before touching
`s.size` in both failure branches. -/
inductive AppendOutcome where
  | ok
  | failLen (junk : List Nat)
  | failPayload (junk : List Nat)
deriving DecidableEq

/-- `store.Append` (store.go lines 42-70) with an explicit outcome for the
underlying buffered writes.  Returns the `(n, pos)` result when the call
succeeds, `none` when it fails, together with the updated store state.
`pos` is the size recorded on entry; on success the length prefix and the
payload are appended to the write buffer and `size` grows by
`uint64(len(p) + lenWidth)`. -/
def storeAppendF (s : StoreState) (p : List Nat) (o : AppendOutcome) :
    Option (Nat × Nat) × StoreState :=
  let pos := s.size
  match o with
  | AppendOutcome.failLen junk =>
      (none, { s with buf := s.buf ++ junk })
  | AppendOutcome.failPayload junk =>
      (none, { s with buf := s.buf ++ putUint64 p.length ++ junk })
  | AppendOutcome.ok =>
      (some ((p.length + lenWidth) % u64Mod, pos),
       { s with
          buf := s.buf ++ putUint64 p.length ++ p,
          size := (s.size + (p.length + lenWidth)) % u64Mod })

/-- `store.Append` on the success path of the underlying writes. -/
def storeAppend (s : StoreState) (p : List Nat) : Option (Nat × Nat) × StoreState :=
  storeAppendF s p AppendOutcome.ok

/-- `store.Read` (store.go lines 72-92): flush the buffer, positionally read
the 8-byte length at `pos`, then read that many payload bytes at
`pos + lenWidth`.  Each `File.ReadAt` fails unless the offset converts to a
nonnegative `int64` and the requested bytes all exist. -/
def storeRead (s : StoreState) (pos : Nat) : Option (List Nat) × StoreState :=
  let file := s.file ++ s.buf
  let s1 : StoreState := { s with file := file, buf := [] }
  if pos < i63Cap ∧ pos + lenWidth ≤ file.length then
    let len := beUint64 ((file.drop pos).take lenWidth)
    if pos + lenWidth < i63Cap ∧ pos + lenWidth + len ≤ file.length then
      (some ((file.drop (pos + lenWidth)).take len), s1)
    else (none, s1)
  else (none, s1)

/-- Iterate `store.Append` over a list of payloads, collecting the returned
start positions. -/
def storeAppendMany (s : StoreState) : List (List Nat) → StoreState × List Nat
  | [] => (s, [])
  | p :: rest =>
      let out := storeAppend s p
      let r := storeAppendMany out.2 rest
      (r.1, (out.1.map Prod.snd).getD 0 :: r.2)

/-- On-disk frame of one record: 8-byte big-endian length, then the payload. -/
def frameOf (p : List Nat) : List Nat := putUint64 p.length ++ p

/-- Concatenation of the frames of a list of payloads. -/
def framesOf (ps : List (List Nat)) : List Nat := (ps.map frameOf).flatten

/-- Total number of store bytes a list of payloads occupies. -/
def widthsOf (ps : List (List Nat)) : Nat :=
  (ps.map (fun p => p.length + lenWidth)).sum

/-! ## Index (src/internal/log/index.go) -/

/-- `indexPosWidth`: bytes of the relative-offset field of an index entry. -/
def indexPosWidth : Nat := 4

/-- `storePosWidth`: bytes of the store-position field of an index entry. -/
def storePosWidth : Nat := 8

/-- `entryWidth`: total bytes of one index entry. -/
def entryWidth : Nat := indexPosWidth + storePosWidth

/-- State of an `index`: the memory-mapped byte region and the in-memory
used `size` counter (a `uint64`). -/
structure IndexState where
  mmap : List Nat
  size : Nat
deriving DecidableEq

/-- Errors an index operation can produce: `io.EOF`, the
invalid-index-offset argument error, or a Go runtime panic from slicing the
map out of bounds. -/
inductive IdxErr where
  | eof
  | invalidArg
  | panic
deriving DecidableEq

/-- Overwrite `bs.length` bytes of `m` starting at byte `i`. -/
def listWrite (m : List Nat) (i : Nat) (bs : List Nat) : List Nat :=
  m.take i ++ bs ++ m.drop (i + bs.length)

/-- `index.Write` (index.go lines 129-140).  The capacity check compares
`len(idx.mmap)` against `pos + entryWidth` where `pos` is the caller's
store position argument (not the index's own `size`); `pos + entryWidth`
is `uint64` arithmetic.  When the check passes, the entry is written at
byte `idx.size`; slicing the map out of bounds there is a runtime panic. -/
def indexWrite (idx : IndexState) (off pos : Nat) : Except IdxErr IndexState :=
  if idx.mmap.length < (pos + entryWidth) % u64Mod then
    Except.error IdxErr.eof
  else if idx.size + entryWidth ≤ idx.mmap.length then
    Except.ok
      { mmap := listWrite idx.mmap idx.size (putUint32 (off % u32Mod) ++ putUint64 pos),
        size := (idx.size + entryWidth) % u64Mod }
  else Except.error IdxErr.panic

/-- Shared tail of `index.Read` (index.go lines 106-123): `pos` is the
entry number times `entryWidth` in `uint64` arithmetic; reading past
`idx.size` is `io.EOF`; slicing the map out of bounds is a runtime panic;
otherwise the two fields are decoded big-endian at byte `pos`. -/
def indexReadAt (idx : IndexState) (entry : Nat) : Except IdxErr (Nat × Nat) :=
  let pos := entry * entryWidth % u64Mod
  if idx.size < (pos + entryWidth) % u64Mod then Except.error IdxErr.eof
  else if pos + entryWidth ≤ idx.mmap.length then
    Except.ok
      (beUint32 ((idx.mmap.drop pos).take indexPosWidth),
       beUint64 ((idx.mmap.drop (pos + indexPosWidth)).take storePosWidth))
  else Except.error IdxErr.panic

/-- `index.Read` (index.go lines 86-124): empty index is `io.EOF`; `-1`
targets the last entry (`size / entryWidth - 1` in `uint64` arithmetic);
a nonnegative argument targets that entry; anything below `-1` is the
invalid-index-offset error. -/
def indexRead (idx : IndexState) (n : Int) : Except IdxErr (Nat × Nat) :=
  if idx.size = 0 then Except.error IdxErr.eof
  else if n = -1 then
    indexReadAt idx ((idx.size / entryWidth + (u64Mod - 1)) % u64Mod)
  else if 0 ≤ n then
    indexReadAt idx n.toNat
  else Except.error IdxErr.invalidArg

/-- The spec's wording of `Index.Write` (for comparison with `indexWrite`):
fail with EndOfFile exactly when `used + entryWidth` exceeds the map
length, otherwise write the entry at byte `used` and advance `used`. -/
def specIndexWrite (idx : IndexState) (off pos : Nat) : Except IdxErr IndexState :=
  if idx.mmap.length < idx.size + entryWidth then Except.error IdxErr.eof
  else Except.ok
    { mmap := listWrite idx.mmap idx.size (putUint32 (off % u32Mod) ++ putUint64 pos),
      size := idx.size + entryWidth }

/-- The spec's wording of `Index.Read` (for comparison with `indexRead`):
the dispatch on `n` with the entry position computed in exact (non-wrapping)
arithmetic. -/
def specIndexRead (idx : IndexState) (n : Int) : Except IdxErr (Nat × Nat) :=
  if idx.size = 0 then Except.error IdxErr.eof
  else if n < -1 then Except.error IdxErr.invalidArg
  else
    let e := if n = -1 then idx.size / entryWidth - 1 else n.toNat
    let pos := e * entryWidth
    if idx.size < pos + entryWidth then Except.error IdxErr.eof
    else Except.ok
      (beUint32 ((idx.mmap.drop pos).take indexPosWidth),
       beUint64 ((idx.mmap.drop (pos + indexPosWidth)).take storePosWidth))

/-! ## Log (src/unnamed/part_003) -/

/-- A segment as the log sees it: its base offset and the offset the next
record appended to it would receive. -/
structure LSegment where
  baseOffset : Nat
  nextOffset : Nat
deriving DecidableEq

/-- State of a `Log`: the segments slice (`none` models a nil Go slice,
`some` a non-nil one — `Log.setup` branches on nilness) and the active
segment. -/
structure LogState where
  segments : Option (List LSegment)
  activeSegment : Option LSegment
deriving DecidableEq

/-- Modelled from the spec: opening a brand-new segment (segment.go is not
among the sources; per the spec's segment open protocol a segment whose
index is empty starts with `nextOffset = baseOffset`). -/
def openSegNew (b : Nat) : LSegment := { baseOffset := b, nextOffset := b }

/-- `Log.newSegment` (part_003 lines 83-96), parameterised by `openSeg`,
the on-disk semantics of `newSegment(dir, off, config)`.  Faithful to the
source: a nil segments slice is replaced by an empty one, then
`l.segments = append(l.segments)` is a no-op append (the new segment value
is missing from the call), and the new segment becomes active. -/
def logNewSegment (openSeg : Nat → LSegment) (l : LogState) (off : Nat) : LogState :=
  let s := openSeg off
  { segments := some (l.segments.getD []), activeSegment := some s }

/-- `strconv.ParseUint(s, 10, 0)` with the error discarded, as in
`Log.setup`: syntax errors (empty or non-digit input) yield 0, range
errors yield the maximal `uint64`. -/
def goParseUintVal (s : List Char) : Nat :=
  if s.isEmpty then 0
  else if s.all Char.isDigit then
    let v := s.foldl (fun a c => a * 10 + (c.toNat - 48)) 0
    if v < u64Mod then v else u64Mod - 1
  else 0

/-- `strings.TrimSuffix(name, path.Ext(name))`: drop the suffix that starts
at the final dot; a name without a dot is unchanged. -/
def stemOf (name : List Char) : List Char :=
  if name.contains '.' then
    ((name.reverse.dropWhile (fun c => c != '.')).tail).reverse
  else name

/-- Base offsets `Log.setup` (part_003 lines 49-57) collects from the
directory entries: each file name is stripped of its extension and parsed,
the parse error discarded. -/
def setupBases (files : List (List Char)) : List Nat :=
  files.map (fun f => goParseUintVal (stemOf f))

/-- The `for` loop of `Log.setup` increments its counter twice per
iteration, so it visits the elements at even positions only. -/
def everyOther : List Nat → List Nat
  | [] => []
  | [a] => [a]
  | a :: _ :: rest => a :: everyOther rest

/-- The base offsets `Log.setup` actually opens segments for: the parsed
offsets, sorted ascending (`sort.Slice`), then thinned to every other
element. -/
def setupOpened (files : List (List Char)) : List Nat :=
  everyOther ((setupBases files).insertionSort (fun a b => a ≤ b))

/-- `Log.setup` (part_003 lines 43-79), parameterised by the on-disk
segment-open semantics: open a segment per element of `setupOpened`, and
create one at the initial offset only when the segments slice is still nil
afterwards. -/
def logSetup (openSeg : Nat → LSegment) (initialOffset : Nat)
    (files : List (List Char)) : LogState :=
  let st := (setupOpened files).foldl (logNewSegment openSeg)
    { segments := none, activeSegment := none }
  if st.segments.isNone then logNewSegment openSeg st initialOffset else st

/-- Modelled from the spec: file names are `<B>.store` and `<B>.index`
with `B` rendered as decimal ASCII digits with no padding (the rendering
lives in the absent segment.go).  `natDigits` is the decimal rendering. -/
def natDigits (n : Nat) : List Char :=
  if h : n < 10 then [Char.ofNat (48 + n)]
  else natDigits (n / 10) ++ [Char.ofNat (48 + n % 10)]
decreasing_by exact Nat.div_lt_self (by omega) (by omega)

/-- The characters of the `.store` file extension. -/
def storeExt : List Char := ['.', 's', 't', 'o', 'r', 'e']

/-- The characters of the `.index` file extension. -/
def indexExt : List Char := ['.', 'i', 'n', 'd', 'e', 'x']

/-- Modelled from the spec: the directory listing of a log directory whose
segments have the given base offsets — one `<B>.store` and one `<B>.index`
file per base offset `B`. -/
def segFiles (bs : List Nat) : List (List Char) :=
  (bs.map (fun b => [natDigits b ++ storeExt, natDigits b ++ indexExt])).flatten

/-- The single error kind `Log.Read` produces. -/
inductive LogErr where
  | offsetOutOfRange
deriving DecidableEq

/-- `Log.findSegment` (part_003 lines 113-120): the first segment whose
offset range contains `off`. -/
def logFindSegment (l : LogState) (off : Nat) : Option LSegment :=
  (l.segments.getD []).find?
    (fun s => decide (s.baseOffset ≤ off) && decide (off < s.nextOffset))

/-- The routing part of `Log.Read` (part_003 lines 122-132): find the
segment for the offset; if there is none, or its `nextOffset` does not
exceed the offset, fail with the offset-out-of-range error; otherwise
delegate to that segment (whose `segment.Read` is outside the modelled
sources, so the chosen segment itself is returned). -/
def logReadRoute (l : LogState) (off : Nat) : Except LogErr LSegment :=
  match logFindSegment l off with
  | none => Except.error LogErr.offsetOutOfRange
  | some seg =>
      if seg.nextOffset ≤ off then Except.error LogErr.offsetOutOfRange
      else Except.ok seg

/-- `Log.Truncate` (part_003 lines 192-208): keep, in order, exactly the
segments whose `nextOffset` exceeds `lowest - 1` computed in `uint64`
arithmetic; the retained slice starts out nil and stays nil when nothing
is retained.  The active segment is not updated. -/
def logTruncate (l : LogState) (lowest : Nat) : LogState :=
  let keep := (l.segments.getD []).filter
    (fun s => !decide (s.nextOffset ≤ (lowest + (u64Mod - 1)) % u64Mod))
  { l with segments := if keep.isEmpty then none else some keep }

/-! ## Helper lemmas: byte encoding and store frames -/

theorem putUint64_length (n : Nat) : (putUint64 n).length = lenWidth := rfl

theorem beUint64_putUint64 (n : Nat) : beUint64 (putUint64 n) = n % u64Mod := by
  simp [putUint64, beUint64, u64Mod]
  omega

theorem frameOf_length (p : List Nat) : (frameOf p).length = p.length + lenWidth := by
  simp [frameOf, putUint64, lenWidth]

theorem framesOf_cons (p : List Nat) (ps : List (List Nat)) :
    framesOf (p :: ps) = frameOf p ++ framesOf ps := by
  simp [framesOf]

theorem widthsOf_cons (p : List Nat) (ps : List (List Nat)) :
    widthsOf (p :: ps) = (p.length + lenWidth) + widthsOf ps := by
  simp [widthsOf]

theorem storeAppend_eq (s : StoreState) (p : List Nat) :
    storeAppend s p =
      (some ((p.length + lenWidth) % u64Mod, s.size),
       { s with buf := s.buf ++ frameOf p,
                size := (s.size + (p.length + lenWidth)) % u64Mod }) := by
  simp [storeAppend, storeAppendF, frameOf]

theorem storeAppendMany_state (ps : List (List Nat)) :
    ∀ s : StoreState,
      (storeAppendMany s ps).1.file = s.file ∧
      (storeAppendMany s ps).1.buf = s.buf ++ framesOf ps := by
  induction ps with
  | nil => intro s; simp [storeAppendMany, framesOf]
  | cons p rest ih =>
      intro s
      have h := ih { s with buf := s.buf ++ frameOf p,
                            size := (s.size + (p.length + lenWidth)) % u64Mod }
      simp only [storeAppendMany, storeAppend_eq]
      refine ⟨h.1, ?_⟩
      rw [h.2, framesOf_cons, List.append_assoc]

theorem storeRead_frame (s : StoreState) (A B p : List Nat)
    (hfile : s.file ++ s.buf = A ++ frameOf p ++ B)
    (hbound : A.length + lenWidth + p.length < i63Cap) :
    (storeRead s A.length).1 = some p := by
  have hlt : p.length < u64Mod := by
    have : i63Cap < u64Mod := by norm_num [i63Cap, u64Mod]
    omega
  have hlen : (A ++ frameOf p ++ B).length = A.length + (p.length + lenWidth) + B.length := by
    simp [frameOf_length]
    omega
  have hc1 : A.length < i63Cap ∧ A.length + lenWidth ≤ (s.file ++ s.buf).length := by
    rw [hfile, hlen]; omega
  have hdrop1 : ((s.file ++ s.buf).drop A.length).take lenWidth = putUint64 p.length := by
    rw [hfile, List.append_assoc, List.drop_left]
    show ((putUint64 p.length ++ p ++ B).take lenWidth) = putUint64 p.length
    rw [List.append_assoc, ← putUint64_length p.length, List.take_left]
  have hdrop2 : ((s.file ++ s.buf).drop (A.length + lenWidth)).take p.length = p := by
    have : s.file ++ s.buf = (A ++ putUint64 p.length) ++ (p ++ B) := by
      rw [hfile]; simp [frameOf]
    rw [this]
    have hl : (A ++ putUint64 p.length).length = A.length + lenWidth := by
      simp [putUint64, lenWidth]
    rw [← hl, List.drop_left]
    exact List.take_left p B
  simp only [storeRead]
  rw [if_pos hc1, hdrop1, beUint64_putUint64, Nat.mod_eq_of_lt hlt]
  have hc2 : A.length + lenWidth < i63Cap ∧
      A.length + lenWidth + p.length ≤ (s.file ++ s.buf).length := by
    rw [hfile, hlen]; omega
  rw [if_pos hc2, hdrop2]

/-- C5: for every sequence of successful `Store.Append` calls with payloads
`p1..pk` and every `i`, `Store.Read` at the start position returned by the
`i`-th append returns `pi` byte-for-byte, the appended bytes still sitting
in the write buffer (flush-before-read). -/
theorem store_read_your_writes (ps : List (List Nat)) :
    ∀ (s : StoreState) (i : Nat),
      s.size = s.file.length + s.buf.length →
      s.size + widthsOf ps < i63Cap →
      i < ps.length →
      (storeRead (storeAppendMany s ps).1 ((storeAppendMany s ps).2.getD i 0)).1
        = some (ps.getD i []) := by
  induction ps with
  | nil => intro s i _ _ hi; simp at hi
  | cons p rest ih =>
      intro s i hinv hfit hi
      have hw : s.size + (p.length + lenWidth) + widthsOf rest < i63Cap := by
        rw [widthsOf_cons] at hfit; omega
      have hmod : (s.size + (p.length + lenWidth)) % u64Mod
          = s.size + (p.length + lenWidth) := by
        apply Nat.mod_eq_of_lt
        have : i63Cap < u64Mod := by norm_num [i63Cap, u64Mod]
        omega
      simp only [storeAppendMany, storeAppend_eq]
      match i with
      | 0 =>
          have hgetD :
              ((Option.map Prod.snd
                (some ((p.length + lenWidth) % u64Mod, s.size))).getD 0) = s.size := rfl
          rw [hgetD]
          simp only [List.getD_cons_zero]
          set s1 : StoreState :=
            { s with buf := s.buf ++ frameOf p,
                     size := (s.size + (p.length + lenWidth)) % u64Mod } with hs1
          have hstate := storeAppendMany_state rest s1
          have hAlen : (s.file ++ s.buf).length = s.size := by
            simp [hinv]
          rw [← hAlen]
          apply storeRead_frame _ (s.file ++ s.buf) (framesOf rest) p
          · rw [hstate.1, hstate.2, hs1]
            simp [List.append_assoc]
          · rw [hAlen]
            rw [widthsOf_cons] at hfit
            omega
      | Nat.succ j =>
          simp only [List.getD_cons_succ]
          set s1 : StoreState :=
            { s with buf := s.buf ++ frameOf p,
                     size := (s.size + (p.length + lenWidth)) % u64Mod } with hs1
          apply ih s1 j
          · rw [hs1]
            simp only [hmod]
            rw [List.length_append, frameOf_length, hinv]
            omega
          · rw [hs1]
            simp only [hmod]
            omega
          · simpa using hi

/-- Witness for C5 at a concrete store and payload sequence. -/
theorem store_read_your_writes_witness :
    ((0 : Nat) = ([] : List Nat).length + ([] : List Nat).length) ∧
    0 + widthsOf [[1, 2], [3]] < i63Cap ∧
    1 < [[1, 2], [3]].length ∧
    (storeRead (storeAppendMany ⟨[], [], 0⟩ [[1, 2], [3]]).1
      ((storeAppendMany ⟨[], [], 0⟩ [[1, 2], [3]]).2.getD 1 0)).1
        = some ([[1, 2], [3]].getD 1 []) :=
  ⟨by decide, by decide, by decide,
   store_read_your_writes [[1, 2], [3]] ⟨[], [], 0⟩ 1 (by decide) (by decide) (by decide)⟩

/-- C6: a successful `Store.Append(p)` returns `(lenWidth + len(p), old
size)` and grows the size counter by exactly `lenWidth + len(p)`, and a
successful `Index.Write` grows the used size by exactly `entryWidth`. -/
theorem append_frame_width (s : StoreState) (p : List Nat) (idx : IndexState)
    (off pos : Nat)
    (hs : s.size + (p.length + lenWidth) < u64Mod)
    (hm : idx.mmap.length < u64Mod) :
    (storeAppend s p).1 = some (p.length + lenWidth, s.size) ∧
    (storeAppend s p).2.size = s.size + (p.length + lenWidth) ∧
    ∀ idx2, indexWrite idx off pos = Except.ok idx2 →
      idx2.size = idx.size + entryWidth := by
  have hp : (p.length + lenWidth) % u64Mod = p.length + lenWidth :=
    Nat.mod_eq_of_lt (by omega)
  refine ⟨?_, ?_, ?_⟩
  · rw [storeAppend_eq]; simp [hp]
  · rw [storeAppend_eq]; simp [Nat.mod_eq_of_lt hs]
  · intro idx2 hok
    unfold indexWrite at hok
    split at hok
    · exact absurd hok (by simp)
    · split at hok
      · rename_i hle
        have : (idx.size + entryWidth) % u64Mod = idx.size + entryWidth :=
          Nat.mod_eq_of_lt (by omega)
        simp only [Except.ok.injEq] at hok
        rw [← hok, this]
      · exact absurd hok (by simp)

/-- Witness for C6 at a concrete store, payload and index. -/
theorem append_frame_width_witness :
    ((0 : Nat) + (3 + lenWidth) < u64Mod) ∧
    (List.replicate 24 0).length < u64Mod ∧
    ((storeAppend ⟨[], [], 0⟩ [5, 6, 7]).1 = some (3 + lenWidth, 0) ∧
     (storeAppend ⟨[], [], 0⟩ [5, 6, 7]).2.size = 0 + (3 + lenWidth) ∧
     ∀ idx2, indexWrite ⟨List.replicate 24 0, 0⟩ 1 11 = Except.ok idx2 →
       idx2.size = 0 + entryWidth) :=
  ⟨by decide, by decide,
   append_frame_width ⟨[], [], 0⟩ [5, 6, 7] ⟨List.replicate 24 0, 0⟩ 1 11
     (by decide) (by decide)⟩

/-- C9: when either underlying write inside `Store.Append` fails, the call
returns no result and leaves the in-memory size counter unchanged, so a
subsequent successful `Append` reports the very start position the failed
call had recorded. -/
theorem append_failure_preserves_size (s : StoreState) (p q : List Nat)
    (o : AppendOutcome) (ho : o ≠ AppendOutcome.ok) :
    (storeAppendF s p o).1 = none ∧
    (storeAppendF s p o).2.size = s.size ∧
    (storeAppend (storeAppendF s p o).2 q).1
      = some ((q.length + lenWidth) % u64Mod, s.size) := by
  cases o with
  | ok => exact absurd rfl ho
  | failLen junk => simp [storeAppendF, storeAppend]
  | failPayload junk => simp [storeAppendF, storeAppend]

/-- Witness for C9 at a concrete store and a failing length-prefix write. -/
theorem append_failure_preserves_size_witness :
    (AppendOutcome.failLen [9] ≠ AppendOutcome.ok) ∧
    ((storeAppendF ⟨[1], [], 1⟩ [2, 3] (AppendOutcome.failLen [9])).1 = none ∧
     (storeAppendF ⟨[1], [], 1⟩ [2, 3] (AppendOutcome.failLen [9])).2.size = 1 ∧
     (storeAppend (storeAppendF ⟨[1], [], 1⟩ [2, 3] (AppendOutcome.failLen [9])).2 [4]).1
       = some ((1 + lenWidth) % u64Mod, 1)) :=
  ⟨by decide,
   append_failure_preserves_size ⟨[1], [], 1⟩ [2, 3] [4]
     (AppendOutcome.failLen [9]) (by decide)⟩

/-! ## Index claims -/

theorem u64Mod_eq : u64Mod = 18446744073709551616 := by norm_num [u64Mod]

theorem entryWidth_eq : entryWidth = 12 := rfl

theorem indexReadAt_eq (idx : IndexState) (e : Nat)
    (hle : idx.size ≤ idx.mmap.length)
    (he : (e + 1) * entryWidth < u64Mod) :
    indexReadAt idx e =
      (if idx.size < e * entryWidth + entryWidth then Except.error IdxErr.eof
       else Except.ok
        (beUint32 ((idx.mmap.drop (e * entryWidth)).take indexPosWidth),
         beUint64 ((idx.mmap.drop (e * entryWidth + indexPosWidth)).take storePosWidth))) := by
  have hew := entryWidth_eq
  have h1 : e * entryWidth % u64Mod = e * entryWidth := by
    apply Nat.mod_eq_of_lt
    have : (e + 1) * entryWidth = e * entryWidth + entryWidth := by ring
    omega
  have h2 : (e * entryWidth + entryWidth) % u64Mod = e * entryWidth + entryWidth := by
    apply Nat.mod_eq_of_lt
    have : (e + 1) * entryWidth = e * entryWidth + entryWidth := by ring
    omega
  unfold indexReadAt
  simp only [h1, h2]
  split
  · rfl
  · rename_i hge
    rw [if_pos (by omega)]

/-- C7 (amended): for every index state whose used size is a multiple of
`entryWidth` and at most the map length (itself below `2 ^ 64`), and every
input `n` whose targeted entry position does not overflow 64 bits,
`index.Read` follows the spec's dispatch: empty index is EndOfFile; `n`
below `-1` is the argument error; `n = -1` targets the last entry and
`n ≥ 0` targets entry `n`; out-of-range positions are EndOfFile; otherwise
the two fields are decoded big-endian at the entry's byte position. -/
theorem index_read_dispatch (idx : IndexState) (n : Int)
    (h12 : entryWidth ∣ idx.size)
    (hle : idx.size ≤ idx.mmap.length)
    (hcap : idx.mmap.length < u64Mod)
    (hn : 0 ≤ n → (n.toNat + 1) * entryWidth < u64Mod) :
    indexRead idx n = specIndexRead idx n := by
  have hew := entryWidth_eq
  have hBig := u64Mod_eq
  by_cases h0 : idx.size = 0
  · simp [indexRead, specIndexRead, h0]
  · by_cases hm1 : n = -1
    · subst hm1
      have h12le : entryWidth ≤ idx.size := by
        obtain ⟨k, hk⟩ := h12
        rcases Nat.eq_zero_or_pos k with h | h
        · subst h; simp at hk; exact absurd hk h0
        · rw [hk]
          calc entryWidth = entryWidth * 1 := by ring
            _ ≤ entryWidth * k := Nat.mul_le_mul_left _ h
      have ht1 : 1 ≤ idx.size / entryWidth :=
        (Nat.one_le_div_iff (by omega)).2 h12le
      have htlt : idx.size / entryWidth < u64Mod :=
        lt_of_le_of_lt (Nat.div_le_self _ _) (lt_of_le_of_lt hle hcap)
      have hent : (idx.size / entryWidth + (u64Mod - 1)) % u64Mod
          = idx.size / entryWidth - 1 := by
        rw [hBig] at htlt ⊢
        omega
      have hmul : idx.size / entryWidth * entryWidth = idx.size :=
        Nat.div_mul_cancel h12
      rw [indexRead, if_neg h0, if_pos rfl, hent, indexReadAt_eq idx _ hle
        (by rw [Nat.sub_add_cancel ht1, hmul]; omega)]
      rw [specIndexRead, if_neg h0]
      norm_num
    · by_cases hge : 0 ≤ n
      · have hnm : ¬ n < -1 := by omega
        rw [indexRead, if_neg h0, if_neg hm1, if_pos hge,
          indexReadAt_eq idx _ hle (hn hge)]
        rw [specIndexRead, if_neg h0, if_neg hnm]
        simp [hm1]
      · have hnm : n < -1 := by omega
        rw [indexRead, if_neg h0, if_neg hm1, if_neg hge,
          specIndexRead, if_neg h0, if_pos hnm]

/-- Witness for C7 at a concrete one-entry index and input. -/
theorem index_read_dispatch_witness :
    (entryWidth ∣ (12 : Nat)) ∧ (12 : Nat) ≤ (List.replicate 24 0).length ∧
    (List.replicate 24 0).length < u64Mod ∧
    ((0 : Int) ≤ 0 → (((0 : Int).toNat + 1) * entryWidth < u64Mod)) ∧
    indexRead ⟨List.replicate 24 0, 12⟩ 0 = specIndexRead ⟨List.replicate 24 0, 12⟩ 0 :=
  ⟨by decide, by decide, by decide, fun _ => by decide,
   index_read_dispatch ⟨List.replicate 24 0, 12⟩ 0 (by decide) (by decide)
     (by decide) (fun _ => by decide)⟩

/-- Counterexample for C7 as stated: on a one-entry index, `Read(2 ^ 62)`
targets entry position `2 ^ 62 * 12`, which the claim says is past the used
size and must fail with EndOfFile; the code multiplies in wrapping `uint64`
arithmetic, gets position 0, and happily returns entry 0. -/
theorem index_read_overflow_counterexample :
    indexRead ⟨List.replicate 12 0, 12⟩ 4611686018427387904 = Except.ok (0, 0) ∧
    specIndexRead ⟨List.replicate 12 0, 12⟩ 4611686018427387904
      = Except.error IdxErr.eof :=
  ⟨rfl, rfl⟩

/-- C1: evaluation of `index.Write` at an input where the claim fails.  The
index is empty with 24 bytes of capacity, so per the claim (and the spec)
writing entry `(0, 100)` must succeed at byte 0; the code instead compares
the map length against the caller's store position `100 + entryWidth` and
reports EndOfFile. -/
theorem index_write_capacity_bug :
    indexWrite ⟨List.replicate 24 0, 0⟩ 0 100 = Except.error IdxErr.eof ∧
    specIndexWrite ⟨List.replicate 24 0, 0⟩ 0 100
      = Except.ok ⟨putUint32 0 ++ putUint64 100 ++ List.replicate 12 0, 12⟩ :=
  ⟨rfl, rfl⟩

/-! ## Directory-name parsing helper lemmas -/

theorem charOfNat_digit_isDigit (d : Nat) (hd : d < 10) :
    (Char.ofNat (48 + d)).isDigit = true := by
  interval_cases d <;> decide

theorem charOfNat_digit_toNat (d : Nat) (hd : d < 10) :
    (Char.ofNat (48 + d)).toNat = 48 + d := by
  interval_cases d <;> decide

theorem charOfNat_digit_ne_dot (d : Nat) (hd : d < 10) :
    Char.ofNat (48 + d) ≠ '.' := by
  interval_cases d <;> decide

theorem natDigits_ne_nil (n : Nat) : natDigits n ≠ [] := by
  rw [natDigits.eq_def]
  split <;> simp

theorem natDigits_all_digit (n : Nat) : ∀ c ∈ natDigits n, c.isDigit = true := by
  induction n using Nat.strong_induction_on with
  | _ n ih =>
    rw [natDigits.eq_def]
    split
    · rename_i h
      intro c hc
      simp only [List.mem_singleton] at hc
      subst hc
      exact charOfNat_digit_isDigit n h
    · rename_i h
      intro c hc
      rw [List.mem_append] at hc
      rcases hc with hc | hc
      · exact ih (n / 10) (Nat.div_lt_self (by omega) (by omega)) c hc
      · simp only [List.mem_singleton] at hc
        subst hc
        exact charOfNat_digit_isDigit (n % 10) (Nat.mod_lt n (by omega))

theorem natDigits_no_dot (n : Nat) : ∀ c ∈ natDigits n, c ≠ '.' := by
  intro c hc hdot
  have := natDigits_all_digit n c hc
  subst hdot
  simp at this

theorem decode_natDigits (n : Nat) :
    (natDigits n).foldl (fun a c => a * 10 + (c.toNat - 48)) 0 = n := by
  induction n using Nat.strong_induction_on with
  | _ n ih =>
    rw [natDigits.eq_def]
    split
    · rename_i h
      simp [charOfNat_digit_toNat n h]
    · rename_i h
      rw [List.foldl_append,
        ih (n / 10) (Nat.div_lt_self (by omega) (by omega))]
      simp [charOfNat_digit_toNat (n % 10) (Nat.mod_lt n (by omega))]
      omega

theorem goParseUintVal_natDigits (b : Nat) (hb : b < u64Mod) :
    goParseUintVal (natDigits b) = b := by
  unfold goParseUintVal
  have h1 : (natDigits b).isEmpty = false := by
    cases h : natDigits b with
    | nil => exact absurd h (natDigits_ne_nil b)
    | cons c cs => rfl
  have h2 : (natDigits b).all Char.isDigit = true := by
    rw [List.all_eq_true]
    exact natDigits_all_digit b
  simp [h1, h2, decode_natDigits b, hb]

theorem dropWhile_append_all (p : Char → Bool) :
    ∀ (xs ys : List Char), (∀ c ∈ xs, p c = true) →
      (xs ++ ys).dropWhile p = ys.dropWhile p := by
  intro xs
  induction xs with
  | nil => intro ys _; rfl
  | cons a l ih =>
      intro ys hall
      rw [List.cons_append, List.dropWhile_cons]
      rw [hall a (List.mem_cons_self a l), if_pos rfl]
      exact ih ys (fun c hc => hall c (List.mem_cons_of_mem a hc))

theorem stemOf_ext (d tl : List Char) (ht : '.' ∉ tl) :
    stemOf (d ++ '.' :: tl) = d := by
  unfold stemOf
  have hc : (d ++ '.' :: tl).contains '.' = true := by
    simp [List.contains]
  rw [hc]
  simp only [if_true]
  rw [List.reverse_append, List.reverse_cons, List.append_assoc]
  have hall : ∀ c ∈ tl.reverse, (c != '.') = true := by
    intro c hcm
    rw [List.mem_reverse] at hcm
    simp only [bne_iff_ne, ne_eq]
    intro hce
    subst hce
    exact ht hcm
  rw [dropWhile_append_all _ _ _ hall]
  rw [List.singleton_append, List.dropWhile_cons]
  simp

/-! ## Log setup lemmas -/

theorem setupBases_segFiles (bs : List Nat) (hb : ∀ b ∈ bs, b < u64Mod) :
    setupBases (segFiles bs) = (bs.map (fun b => [b, b])).flatten := by
  induction bs with
  | nil => rfl
  | cons b rest ih =>
      have hblt : b < u64Mod := hb b (List.mem_cons_self b rest)
      have hstore : stemOf (natDigits b ++ storeExt) = natDigits b := by
        have := stemOf_ext (natDigits b) ['s', 't', 'o', 'r', 'e'] (by decide)
        exact this
      have hindex : stemOf (natDigits b ++ indexExt) = natDigits b := by
        have := stemOf_ext (natDigits b) ['i', 'n', 'd', 'e', 'x'] (by decide)
        exact this
      have hrest : ∀ x ∈ rest, x < u64Mod :=
        fun x hx => hb x (List.mem_cons_of_mem b hx)
      simp only [segFiles, List.map_cons, List.flatten_cons, setupBases,
        List.map_append, List.map_cons, List.map_nil] at ih ⊢
      rw [hstore, hindex, goParseUintVal_natDigits b hblt]
      simpa using ih hrest

theorem mem_doubled (x : Nat) (bs : List Nat) :
    x ∈ (bs.map (fun b => [b, b])).flatten ↔ x ∈ bs := by
  simp [List.mem_flatten]

theorem doubled_sorted (bs : List Nat) (h : bs.Pairwise (· < ·)) :
    ((bs.map (fun b => [b, b])).flatten).Sorted (· ≤ ·) := by
  induction bs with
  | nil => simp [List.Sorted]
  | cons b rest ih =>
      rw [List.pairwise_cons] at h
      have hle : ∀ x ∈ (rest.map (fun b => [b, b])).flatten, b ≤ x := by
        intro x hx
        exact le_of_lt (h.1 x ((mem_doubled x rest).1 hx))
      simp only [List.map_cons, List.flatten_cons]
      rw [List.cons_append, List.singleton_append]
      unfold List.Sorted
      rw [List.pairwise_cons, List.pairwise_cons]
      refine ⟨?_, ?_, ih h.2⟩
      · intro x hx
        rcases List.mem_cons.1 hx with rfl | hx
        · exact le_refl x
        · exact hle x hx
      · exact hle

theorem everyOther_doubled (bs : List Nat) :
    everyOther ((bs.map (fun b => [b, b])).flatten) = bs := by
  induction bs with
  | nil => rfl
  | cons b rest ih =>
      simp only [List.map_cons, List.flatten_cons, List.cons_append,
        List.singleton_append]
      rw [everyOther]
      simp only [List.nil_append]
      rw [ih]

theorem foldl_newSegment (openSeg : Nat → LSegment) :
    ∀ (bs : List Nat) (l : LogState) (h : bs ≠ []),
      (bs.foldl (logNewSegment openSeg) l).activeSegment
        = some (openSeg (bs.getLast h)) ∧
      (bs.foldl (logNewSegment openSeg) l).segments
        = some (l.segments.getD []) := by
  intro bs
  induction bs with
  | nil => intro l h; exact absurd rfl h
  | cons b rest ih =>
      intro l h
      cases rest with
      | nil => exact ⟨rfl, rfl⟩
      | cons c cs =>
          have h2 : c :: cs ≠ [] := by simp
          have hstep := ih (logNewSegment openSeg l b) h2
          rw [List.foldl_cons]
          refine ⟨?_, ?_⟩
          · rw [hstep.1, List.getLast_cons h2]
          · rw [hstep.2]
            simp [logNewSegment]

/-- C4: on a directory holding exactly a `<B>.store` and a `<B>.index` file
for each base offset `B`, `Log.setup` opens exactly one segment per
distinct base offset, in ascending order of base offset, and the last one
opened becomes the active segment. -/
theorem setup_opens_sorted_bases (openSeg : Nat → LSegment) (initOff : Nat)
    (bs : List Nat) (hne : bs ≠ []) (hsort : bs.Pairwise (· < ·))
    (hlt : ∀ b ∈ bs, b < u64Mod) :
    setupOpened (segFiles bs) = bs ∧
    (logSetup openSeg initOff (segFiles bs)).activeSegment
      = some (openSeg (bs.getLast hne)) := by
  have h1 : setupOpened (segFiles bs) = bs := by
    unfold setupOpened
    rw [setupBases_segFiles bs hlt,
      List.Sorted.insertionSort_eq (doubled_sorted bs hsort)]
    exact everyOther_doubled bs
  refine ⟨h1, ?_⟩
  unfold logSetup
  rw [h1]
  have h2 := foldl_newSegment openSeg bs ⟨none, none⟩ hne
  simp only [h2.2, Option.isNone_some, Bool.false_eq_true, if_false]
  exact h2.1

/-- Witness for C4 on a directory with base offsets 0 and 5. -/
theorem setup_opens_sorted_bases_witness :
    (([0, 5] : List Nat) ≠ []) ∧
    ([0, 5] : List Nat).Pairwise (· < ·) ∧
    (∀ b ∈ ([0, 5] : List Nat), b < u64Mod) ∧
    (setupOpened (segFiles [0, 5]) = [0, 5] ∧
     (logSetup openSegNew 0 (segFiles [0, 5])).activeSegment
       = some (openSegNew (([0, 5] : List Nat).getLast (by decide)))) :=
  ⟨by decide, by decide, by decide,
   setup_opens_sorted_bases openSegNew 0 [0, 5] (by decide) (by decide) (by decide)⟩

/-- C10: a directory entry whose name stem is not a decimal digit string
does not make `Log.setup` fail; the parse error is discarded and the entry
contributes base offset 0 to the collected base offsets. -/
theorem setup_parse_error_contributes_zero (f : List Char)
    (files : List (List Char))
    (h : (stemOf f).isEmpty = true ∨ (stemOf f).all Char.isDigit = false) :
    setupBases (f :: files) = 0 :: setupBases files := by
  unfold setupBases
  rw [List.map_cons]
  congr 1
  unfold goParseUintVal
  rcases h with h | h
  · rw [h]
    simp
  · by_cases he : (stemOf f).isEmpty = true
    · rw [he]; simp
    · simp only [Bool.not_eq_true] at he
      rw [he, h]
      simp

/-- Witness for C10 with the file name `ab.store`. -/
theorem setup_parse_error_contributes_zero_witness :
    ((stemOf ['a', 'b', '.', 's', 't', 'o', 'r', 'e']).isEmpty = true ∨
     (stemOf ['a', 'b', '.', 's', 't', 'o', 'r', 'e']).all Char.isDigit = false) ∧
    setupBases (['a', 'b', '.', 's', 't', 'o', 'r', 'e'] :: [['5']])
      = 0 :: setupBases [['5']] :=
  ⟨by decide,
   setup_parse_error_contributes_zero ['a', 'b', '.', 's', 't', 'o', 'r', 'e']
     [['5']] (by decide)⟩

/-! ## Remaining log claims -/

/-- C2: evaluation of `Log.newSegment` at a fresh log.  The new segment
becomes active, but `l.segments = append(l.segments)` appends nothing, so
the segments list stays empty and the active segment is not a member of it
— contradicting both the claim and the function's own doc comment. -/
theorem new_segment_not_appended :
    (logNewSegment openSegNew ⟨none, none⟩ 0).activeSegment = some ⟨0, 0⟩ ∧
    (logNewSegment openSegNew ⟨none, none⟩ 0).segments = some [] ∧
    openSegNew 0 ∉ (logNewSegment openSegNew ⟨none, none⟩ 0).segments.getD [] :=
  ⟨rfl, rfl, by decide⟩

/-- C3: evaluation of `Log.Truncate` at `lowest = 0` on a log with one
segment whose `nextOffset` is 3.  The claim says no segment has
`nextOffset ≤ 0 - 1` (the mathematical integer `-1`), so everything must be
retained; the code computes `0 - 1` in `uint64` arithmetic, gets the
maximal `uint64`, and removes the segment. -/
theorem truncate_zero_underflow :
    logTruncate ⟨some [⟨0, 3⟩], some ⟨0, 3⟩⟩ 0 = ⟨none, some ⟨0, 3⟩⟩ ∧
    ¬ ((3 : Int) ≤ (0 : Int) - 1) :=
  ⟨rfl, by decide⟩

theorem containing_unique (off : Nat) :
    ∀ L : List LSegment, L.Pairwise (fun a b => a.nextOffset ≤ b.baseOffset) →
      ∀ s t, s ∈ L → t ∈ L →
        s.baseOffset ≤ off → off < s.nextOffset →
        t.baseOffset ≤ off → off < t.nextOffset → t = s := by
  intro L
  induction L with
  | nil => intro _ s t hs; simp at hs
  | cons a M ih =>
      intro hp s t hs ht hs1 hs2 ht1 ht2
      rw [List.pairwise_cons] at hp
      rcases List.mem_cons.1 hs with hsa | hsm
      · rcases List.mem_cons.1 ht with hta | htm
        · rw [hta, hsa]
        · exfalso
          rw [hsa] at hs2
          have := hp.1 t htm
          omega
      · rcases List.mem_cons.1 ht with hta | htm
        · exfalso
          rw [hta] at ht2
          have := hp.1 s hsm
          omega
        · exact ih hp.2 s t hsm htm hs1 hs2 ht1 ht2

/-- C8: `Log.Read` reports the offset-out-of-range error exactly when no
segment's range `[baseOffset, nextOffset)` contains the offset; otherwise
it delegates to a containing segment, which is the unique one when the
segment ranges are disjoint (consecutive ranges being contiguous). -/
theorem log_read_out_of_range (l : LogState) (off : Nat)
    (hdisj : (l.segments.getD []).Pairwise (fun a b => a.nextOffset ≤ b.baseOffset)) :
    ((logReadRoute l off = Except.error LogErr.offsetOutOfRange) ↔
      ∀ s ∈ l.segments.getD [], ¬ (s.baseOffset ≤ off ∧ off < s.nextOffset)) ∧
    (∀ seg, logReadRoute l off = Except.ok seg →
      seg ∈ l.segments.getD [] ∧ seg.baseOffset ≤ off ∧ off < seg.nextOffset ∧
      ∀ t ∈ l.segments.getD [], t.baseOffset ≤ off → off < t.nextOffset →
        t = seg) := by
  cases hfind : (l.segments.getD []).find?
      (fun s => decide (s.baseOffset ≤ off) && decide (off < s.nextOffset)) with
  | none =>
      have hroute : logReadRoute l off = Except.error LogErr.offsetOutOfRange := by
        unfold logReadRoute logFindSegment
        rw [hfind]
      rw [List.find?_eq_none] at hfind
      constructor
      · rw [hroute]
        simp only [true_iff]
        intro s hs hcontra
        exact hfind s hs (by simp [hcontra.1, hcontra.2])
      · intro seg hseg
        rw [hroute] at hseg
        exact absurd hseg (by simp)
  | some s =>
      have hmem : s ∈ l.segments.getD [] := List.mem_of_find?_eq_some hfind
      have hcont := List.find?_some hfind
      simp only [Bool.and_eq_true, decide_eq_true_eq] at hcont
      have hroute : logReadRoute l off = Except.ok s := by
        unfold logReadRoute logFindSegment
        rw [hfind]
        show (if s.nextOffset ≤ off then Except.error LogErr.offsetOutOfRange
              else Except.ok s) = Except.ok s
        rw [if_neg (by omega)]
      constructor
      · rw [hroute]
        constructor
        · intro h
          exact absurd h (by simp)
        · intro hall
          exact absurd ⟨hcont.1, hcont.2⟩ (hall s hmem)
      · intro seg hseg
        rw [hroute] at hseg
        have hseq : s = seg := by
          simpa using hseg
        subst hseq
        refine ⟨hmem, hcont.1, hcont.2, ?_⟩
        intro t htm ht1 ht2
        exact containing_unique off _ hdisj s t hmem htm hcont.1 hcont.2 ht1 ht2

/-- Witness for C8 on a two-segment log and a contained offset. -/
theorem log_read_out_of_range_witness :
    ((⟨some [⟨0, 3⟩, ⟨3, 6⟩], none⟩ : LogState).segments.getD []).Pairwise
      (fun a b => a.nextOffset ≤ b.baseOffset) ∧
    (((logReadRoute ⟨some [⟨0, 3⟩, ⟨3, 6⟩], none⟩ 4
        = Except.error LogErr.offsetOutOfRange) ↔
      ∀ s ∈ ((⟨some [⟨0, 3⟩, ⟨3, 6⟩], none⟩ : LogState).segments.getD []),
        ¬ (s.baseOffset ≤ 4 ∧ 4 < s.nextOffset)) ∧
    (∀ seg, logReadRoute ⟨some [⟨0, 3⟩, ⟨3, 6⟩], none⟩ 4 = Except.ok seg →
      seg ∈ ((⟨some [⟨0, 3⟩, ⟨3, 6⟩], none⟩ : LogState).segments.getD []) ∧
      seg.baseOffset ≤ 4 ∧ 4 < seg.nextOffset ∧
      ∀ t ∈ ((⟨some [⟨0, 3⟩, ⟨3, 6⟩], none⟩ : LogState).segments.getD []),
        t.baseOffset ≤ 4 → 4 < t.nextOffset → t = seg)) :=
  ⟨by decide, log_read_out_of_range ⟨some [⟨0, 3⟩, ⟨3, 6⟩], none⟩ 4 (by decide)⟩
